import Mathlib

/-!
Verification of the `HighlightedText` range-merge algorithm from
`packages/kumo` (command-palette result highlighting).

The source function takes a string `text` and an optional list of
`HighlightRange` values (inclusive integer pairs `[start, end]`), sorts
the ranges by start, merges overlapping or adjacent ranges, and emits an
alternating sequence of plain and highlighted segments.

Modelling choices:
* `text` is a `List Char`; JavaScript `String.prototype.slice` (with its
  clamping and negative-index semantics) is `jsSlice`.
* `HighlightRange` is `Int × Int`.  The type itself is declared outside
  the sources at hand; it is modelled from the spec: a pair of integer
  offsets `[start, end]`, both inclusive (usage in the source reads
  `range[0]` and `range[1]`).
* `[...highlights].sort((a, b) => a[0] - b[0])` is a stable sort by the
  first component, modelled by `List.insertionSort` (stable, ascending).
* The merge loop (`mergedHighlights`, mutating `last[1]`) is modelled
  functionally by a `foldl` (`mergeRanges`) that mirrors the loop body,
  with a recursive equivalent (`mergeLoop`) used in proofs.
* The `forEach` emission loop with its `lastIndex` cursor is
  `emitSegments`.
* To reason about aliasing and mutation (the function mutates only
  freshly copied pairs), a heap-passing model is given further below.
-/

namespace Kumo

/-- Segment tag: plain text or a highlighted match. -/
inductive Kind where
  | plain : Kind
  | highlighted : Kind
deriving DecidableEq

/-- One emitted segment: a tag together with its text content. -/
structure Segment where
  kind : Kind
  content : List Char
deriving DecidableEq

/-- Modelled from the spec: `HighlightRange`, declared outside the
available sources, is a pair of integer offsets `[start, end]`, both
inclusive. -/
abbrev HighlightRange := Int × Int

/-- JavaScript `s.slice(a, b)`: negative indices count from the end,
indices are clamped to `[0, length]`, and an empty list results when the
clamped start is not below the clamped end. -/
def jsSlice (s : List Char) (a b : Int) : List Char :=
  let len : Int := s.length
  let lo : Int := if a < 0 then max (len + a) 0 else min a len
  let hi : Int := if b < 0 then max (len + b) 0 else min b len
  (s.take hi.toNat).drop lo.toNat

/-- `[...highlights].sort((a, b) => a[0] - b[0])`: stable sort of the
ranges by start index, ascending. -/
def sortHighlights (hs : List HighlightRange) : List HighlightRange :=
  hs.insertionSort (fun a b => a.1 ≤ b.1)

/-- The body of the merge loop, on the values involved: the accumulated
`mergedHighlights` and the next `range`.  When
`range[0] <= last[1] + 1` the last merged range is extended in place
(`last[1] = Math.max(last[1], range[1])`); otherwise the range is pushed
as a fresh one. -/
def mergeBody (merged : List HighlightRange) (range : HighlightRange) :
    List HighlightRange :=
  match merged.getLast? with
  | some last =>
      if range.1 ≤ last.2 + 1 then
        merged.dropLast ++ [(last.1, max last.2 range.2)]
      else
        merged ++ [range]
  | none => merged ++ [range]

/-- The merge pass over the sorted ranges, exactly as the source loop:
starting from an empty `mergedHighlights`, fold `mergeBody` over the
sorted ranges. -/
def mergeRanges (sorted : List HighlightRange) : List HighlightRange :=
  sorted.foldl mergeBody []

/-- Recursive form of the merge pass, carrying the current merged range
explicitly; `mergeRanges_eq_mergeLoop` relates it to `mergeRanges`. -/
def mergeLoop (cur : HighlightRange) : List HighlightRange → List HighlightRange
  | [] => [cur]
  | r :: rs =>
      if r.1 ≤ cur.2 + 1 then
        mergeLoop (cur.1, max cur.2 r.2) rs
      else
        cur :: mergeLoop r rs

/-- The emission loop: walk the merged ranges with cursor `lastIndex`;
before each range emit the plain gap when `start > lastIndex`, then the
highlighted slice `text.slice(start, end + 1)`; after the loop emit the
plain tail when `lastIndex < text.length`. -/
def emitSegments (text : List Char) : List HighlightRange → Int → List Segment
  | [], lastIndex =>
      if lastIndex < (text.length : Int) then
        [⟨.plain, jsSlice text lastIndex text.length⟩]
      else
        []
  | (s, e) :: rs, lastIndex =>
      (if s > lastIndex then [⟨.plain, jsSlice text lastIndex s⟩] else [])
        ++ ⟨.highlighted, jsSlice text s (e + 1)⟩ :: emitSegments text rs (e + 1)

/-- The `HighlightedText` component, as a function from its inputs to the
sequence of rendered segments.  `none` models an absent `highlights`
prop; the `highlights.length === 0` guard returns the whole text as one
plain span. -/
def HighlightedText (text : List Char) (highlights : Option (List HighlightRange)) :
    List Segment :=
  match highlights with
  | none => [⟨.plain, text⟩]
  | some hs =>
      if hs.length = 0 then [⟨.plain, text⟩]
      else emitSegments text (mergeRanges (sortHighlights hs)) 0

/-- Concatenation of the contents of a segment list. -/
def segsContent (l : List Segment) : List Char :=
  l.foldr (fun s acc => s.content ++ acc) []

@[simp] theorem segsContent_nil : segsContent [] = [] := rfl

@[simp] theorem segsContent_cons (s : Segment) (l : List Segment) :
    segsContent (s :: l) = s.content ++ segsContent l := rfl

@[simp] theorem segsContent_append (l₁ l₂ : List Segment) :
    segsContent (l₁ ++ l₂) = segsContent l₁ ++ segsContent l₂ := by
  induction l₁ with
  | nil => simp
  | cons s l ih => simp [ih]

/-- The foldl merge equals the recursive merge, relative to any already
finalized prefix. -/
theorem foldl_merge_eq (rs : List HighlightRange) :
    ∀ (acc : List HighlightRange) (cur : HighlightRange),
      rs.foldl mergeBody (acc ++ [cur]) = acc ++ mergeLoop cur rs := by
  induction rs with
  | nil => intro acc cur; simp [mergeLoop]
  | cons r rs ih =>
      intro acc cur
      simp only [List.foldl_cons, mergeBody, List.getLast?_concat, List.dropLast_concat,
        mergeLoop]
      by_cases h : r.1 ≤ cur.2 + 1
      · simp only [h, if_pos]
        exact ih acc (cur.1, max cur.2 r.2)
      · simp only [h, if_neg, not_false_iff]
        have := ih (acc ++ [cur]) r
        simpa [List.append_assoc] using this


theorem mergeRanges_eq_mergeLoop (r : HighlightRange) (rs : List HighlightRange) :
    mergeRanges (r :: rs) = mergeLoop r rs := by
  have := foldl_merge_eq rs [] r
  simpa [mergeRanges] using this

/-- In `mergeLoop`, the start of the current range survives as the start
of the first emitted merged range, and its end only grows. -/
theorem mergeLoop_head :
    ∀ (rs : List HighlightRange) (cur : HighlightRange),
      ∃ e t, mergeLoop cur rs = (cur.1, e) :: t ∧ cur.2 ≤ e := by
  intro rs
  induction rs with
  | nil => intro cur; exact ⟨cur.2, [], rfl, le_refl _⟩
  | cons r rs ih =>
      intro cur
      by_cases h : r.1 ≤ cur.2 + 1
      · obtain ⟨e, t, heq, hle⟩ := ih (cur.1, max cur.2 r.2)
        exact ⟨e, t, by simp [mergeLoop, h, heq], le_trans (le_max_left _ _) hle⟩
      · exact ⟨cur.2, mergeLoop r rs, by simp [mergeLoop, h], le_refl _⟩

/-- Consecutive merged ranges are separated by a gap of at least one
index: a later start exceeds the earlier end by more than one.  This
holds for arbitrary inputs, because a range is finalized only when the
next start is beyond `end + 1`, and is never modified afterwards. -/
theorem mergeLoop_chain :
    ∀ (rs : List HighlightRange) (cur : HighlightRange),
      List.Chain' (fun a b => a.2 + 1 < b.1) (mergeLoop cur rs) := by
  intro rs
  induction rs with
  | nil => intro cur; simp [mergeLoop]
  | cons r rs ih =>
      intro cur
      by_cases h : r.1 ≤ cur.2 + 1
      · simpa [mergeLoop, h] using ih (cur.1, max cur.2 r.2)
      · obtain ⟨e, t, heq, -⟩ := mergeLoop_head rs r
        have hc := ih r
        rw [heq] at hc
        simp only [mergeLoop, h, if_neg, not_false_iff, heq]
        exact hc.cons (by simpa using by omega)

/-- Merging preserves the range invariant `0 ≤ start ≤ end < L`. -/
theorem mergeLoop_bounds (L : Int) :
    ∀ (rs : List HighlightRange) (cur : HighlightRange),
      0 ≤ cur.1 ∧ cur.1 ≤ cur.2 ∧ cur.2 < L →
      (∀ r ∈ rs, 0 ≤ r.1 ∧ r.1 ≤ r.2 ∧ r.2 < L) →
      ∀ m ∈ mergeLoop cur rs, 0 ≤ m.1 ∧ m.1 ≤ m.2 ∧ m.2 < L := by
  intro rs
  induction rs with
  | nil =>
      intro cur hcur _ m hm
      simp only [mergeLoop, List.mem_singleton] at hm
      exact hm ▸ hcur
  | cons r rs ih =>
      intro cur hcur hrs m hm
      have hr := hrs r (List.mem_cons_self r rs)
      have hrs' : ∀ x ∈ rs, 0 ≤ x.1 ∧ x.1 ≤ x.2 ∧ x.2 < L :=
        fun x hx => hrs x (List.mem_cons_of_mem r hx)
      by_cases h : r.1 ≤ cur.2 + 1
      · rw [mergeLoop, if_pos h] at hm
        refine ih (cur.1, max cur.2 r.2) ⟨hcur.1, ?_, ?_⟩ hrs' m hm
        · exact le_trans hcur.2.1 (le_max_left _ _)
        · exact max_lt hcur.2.2 hr.2.2
      · rw [mergeLoop, if_neg h] at hm
        rcases List.mem_cons.mp hm with rfl | hm'
        · exact hcur
        · exact ih r hr hrs' m hm'

/-- C2: after sorting by start, the merge pass combines a new range into
the current one exactly when `start ≤ current.end + 1`, taking the end to
`max(current.end, new.end)`, and otherwise finalizes the current range
and starts a fresh one; `[0,2],[3,5]` merge to `[0,5]` and `[1,4],[3,6]`
merge to `[1,6]`. -/
theorem C2_merge_step :
    (∀ (cur r : HighlightRange) (rs : List HighlightRange),
        (r.1 ≤ cur.2 + 1 → mergeLoop cur (r :: rs) = mergeLoop (cur.1, max cur.2 r.2) rs) ∧
        (cur.2 + 1 < r.1 → mergeLoop cur (r :: rs) = cur :: mergeLoop r rs)) ∧
    (∀ (r : HighlightRange) (rs : List HighlightRange),
        mergeRanges (r :: rs) = mergeLoop r rs) ∧
    mergeRanges (sortHighlights [(0, 2), (3, 5)]) = [(0, 5)] ∧
    mergeRanges (sortHighlights [(1, 4), (3, 6)]) = [(1, 6)] := by
  refine ⟨fun cur r rs => ⟨fun h => ?_, fun h => ?_⟩, mergeRanges_eq_mergeLoop, by decide, by decide⟩
  · simp [mergeLoop, h]
  · have h' : ¬ r.1 ≤ cur.2 + 1 := by omega
    simp [mergeLoop, h']

/-- Witness for C2 at the concrete adjacent pair `[0,2]`, `[3,5]`. -/
theorem C2_merge_step_witness :
    mergeLoop ((0 : Int), (2 : Int)) [((3 : Int), (5 : Int))] =
      mergeLoop ((0 : Int), max 2 5) [] :=
  (C2_merge_step.1 (0, 2) (3, 5) []).1 (by decide)

/-- C3: segment emission walks the merged ranges with a cursor starting
at 0, emitting a plain gap only when `start > cursor`, then the inclusive
highlighted slice, advancing the cursor to `end + 1`, and finally a plain
tail only when the cursor is left of the end of the text; for
`text = "hi"` and highlights `[[0,1]]` the output is the single
highlighted segment `"hi"`. -/
theorem C3_emission :
    (∀ (text : List Char) (lastIndex : Int),
        emitSegments text [] lastIndex =
          if lastIndex < (text.length : Int) then
            [⟨.plain, jsSlice text lastIndex text.length⟩]
          else []) ∧
    (∀ (text : List Char) (s e : Int) (rs : List HighlightRange) (lastIndex : Int),
        emitSegments text ((s, e) :: rs) lastIndex =
          (if s > lastIndex then [⟨.plain, jsSlice text lastIndex s⟩] else [])
            ++ ⟨.highlighted, jsSlice text s (e + 1)⟩ :: emitSegments text rs (e + 1)) ∧
    HighlightedText "hi".data (some [(0, 1)]) = [⟨.highlighted, "hi".data⟩] := by
  exact ⟨fun _ _ => rfl, fun _ _ _ _ _ => rfl, by decide⟩

/-- Splitting a drop at an intermediate index. -/
theorem drop_split (l : List Char) (A B : Nat) (h : A ≤ B) :
    (l.take B).drop A ++ l.drop B = l.drop A := by
  have h1 : (l.take B).drop A = (l.drop A).take (B - A) := List.drop_take B A l
  have h2 : l.drop B = (l.drop A).drop (B - A) := by
    rw [List.drop_drop]
    congr 1
    omega
  rw [h1, h2, List.take_append_drop]

/-- Slicing the whole text is the identity. -/
theorem jsSlice_full (s : List Char) : jsSlice s 0 s.length = s := by
  have h0 : ¬ (0 : Int) < 0 := by omega
  have hn : ¬ (s.length : Int) < 0 := not_lt.mpr (by positivity)
  simp only [jsSlice, if_neg h0, if_neg hn, min_self, Int.toNat_natCast, List.take_length]
  rw [min_eq_left (by positivity), Int.toNat_zero, List.drop_zero]

/-- A slice starting at or beyond the end of the text is empty. -/
theorem jsSlice_empty_of_ge (s : List Char) (a : Int) (h : (s.length : Int) ≤ a) :
    jsSlice s a s.length = [] := by
  have h0 : ¬ a < 0 := by omega
  have h1 : min a (s.length : Int) = (s.length : Int) := min_eq_right h
  simp [jsSlice, h0, h1]

/-- Two adjacent slices, the second one running to the end of the text,
concatenate to a single slice. -/
theorem jsSlice_glue (s : List Char) (a b : Int) (ha : 0 ≤ a) (hab : a ≤ b) :
    jsSlice s a b ++ jsSlice s b s.length = jsSlice s a s.length := by
  have hb : 0 ≤ b := le_trans ha hab
  have ha' : ¬ a < 0 := not_lt.mpr ha
  have hb' : ¬ b < 0 := not_lt.mpr hb
  have hn' : ¬ (s.length : Int) < 0 := not_lt.mpr (by positivity)
  have hmin : ((s.length : Int)).toNat = s.length := Int.toNat_natCast _
  simp only [jsSlice, if_neg ha', if_neg hb', if_neg hn', min_self, hmin, List.take_length]
  exact drop_split s _ _ (Int.toNat_le_toNat (min_le_min hab (le_refl _)))

/-- Coverage of the emission loop: provided the merged ranges are
well-formed (`0 ≤ start ≤ end`), separated, and start at or after the
cursor, the emitted contents concatenate to the slice from the cursor to
the end of the text. -/
theorem emit_content (text : List Char) :
    ∀ (rs : List HighlightRange) (cursor : Int),
      0 ≤ cursor →
      (∀ r ∈ rs, 0 ≤ r.1 ∧ r.1 ≤ r.2) →
      List.Chain' (fun a b => a.2 + 1 ≤ b.1) rs →
      (∀ r ∈ rs.head?, cursor ≤ r.1) →
      segsContent (emitSegments text rs cursor) = jsSlice text cursor text.length := by
  intro rs
  induction rs with
  | nil =>
      intro cursor hc _ _ _
      by_cases h : cursor < (text.length : Int)
      · simp [emitSegments, h]
      · simp [emitSegments, h, jsSlice_empty_of_ge text cursor (by omega)]
  | cons r rs ih =>
      obtain ⟨s, e⟩ := r
      intro cursor hc hv hchain hhead
      have hse := hv (s, e) (List.mem_cons_self _ _)
      have hcs : cursor ≤ s := hhead (s, e) (by simp)
      obtain ⟨hrel, htail⟩ := List.chain'_cons'.mp hchain
      have ih' : segsContent (emitSegments text rs (e + 1)) =
          jsSlice text (e + 1) text.length := by
        refine ih (e + 1) (by omega) (fun x hx => hv x (List.mem_cons_of_mem _ hx)) htail ?_
        intro x hx
        exact hrel x hx
      by_cases hgt : s > cursor
      · simp only [emitSegments, if_pos hgt, segsContent_append, segsContent_cons,
          segsContent_nil, List.append_nil, ih']
        rw [jsSlice_glue text s (e + 1) hse.1 (by omega)]
        exact jsSlice_glue text cursor s hc (le_of_lt hgt)
      · have hcse : cursor = s := le_antisymm hcs (not_lt.mp hgt)
        subst hcse
        simp only [emitSegments, if_neg hgt, segsContent_cons, List.nil_append, ih']
        exact jsSlice_glue text cursor (e + 1) hc (by omega)

/-- C1 fails as stated for arbitrary range lists: the inverted range
`[2,0]` on `"abc"` makes the emitted contents concatenate to `"abbc"`,
not `"abc"` (the plain gap runs to index 2 but the cursor is reset to
1 by the inverted end). -/
theorem C1_coverage_cex :
    segsContent (HighlightedText "abc".data (some [(2, 0)])) ≠ "abc".data := by
  decide

/-- C1 (amended): for ranges satisfying the data-model invariant
`0 ≤ start ≤ end < text.length`, the concatenation of the contents of
all emitted segments, in emission order, equals the original text
exactly; an absent highlight list also reproduces the text. -/
theorem C1_coverage (text : List Char) (hs : List HighlightRange)
    (hv : ∀ r ∈ hs, 0 ≤ r.1 ∧ r.1 ≤ r.2 ∧ r.2 < (text.length : Int)) :
    segsContent (HighlightedText text (some hs)) = text ∧
    segsContent (HighlightedText text none) = text := by
  constructor
  · by_cases hlen : hs.length = 0
    · have h0 : hs = [] := List.length_eq_zero.mp hlen
      subst h0
      simp [HighlightedText, segsContent]
    · have hsortmem : ∀ r ∈ sortHighlights hs, 0 ≤ r.1 ∧ r.1 ≤ r.2 ∧ r.2 < (text.length : Int) := by
        intro r hr
        refine hv r ?_
        simpa [sortHighlights] using hr
      have hne : sortHighlights hs ≠ [] := by
        intro h
        have hperm := List.perm_insertionSort (fun a b : HighlightRange => a.1 ≤ b.1) hs
        rw [sortHighlights] at h
        rw [h] at hperm
        exact hlen (by simpa using hperm.length_eq.symm)
      obtain ⟨s₀, srest, heq⟩ := List.exists_cons_of_ne_nil hne
      have hs₀ := hsortmem s₀ (heq ▸ List.mem_cons_self _ _)
      have hrest : ∀ r ∈ srest, 0 ≤ r.1 ∧ r.1 ≤ r.2 ∧ r.2 < (text.length : Int) :=
        fun r hr => hsortmem r (heq ▸ List.mem_cons_of_mem _ hr)
      have hbounds := mergeLoop_bounds (text.length : Int) srest s₀ hs₀ hrest
      obtain ⟨e, t, hml, -⟩ := mergeLoop_head srest s₀
      have hstep : HighlightedText text (some hs) =
          emitSegments text (mergeLoop s₀ srest) 0 := by
        simp only [HighlightedText, if_neg hlen]
        rw [heq, mergeRanges_eq_mergeLoop]
      rw [hstep]
      rw [emit_content text (mergeLoop s₀ srest) 0 (le_refl 0)
        (fun m hm => ⟨(hbounds m hm).1, (hbounds m hm).2.1⟩)
        ((mergeLoop_chain srest s₀).imp (fun _ _ h => le_of_lt h))
        (by
          intro r hr
          rw [hml] at hr
          simp only [List.head?_cons, Option.mem_def, Option.some.injEq] at hr
          subst hr
          exact hs₀.1)]
      exact jsSlice_full text
  · simp [HighlightedText, segsContent]

/-- Witness for C1 at `"hello"` with the valid range `[1,2]`. -/
theorem C1_coverage_witness :
    segsContent (HighlightedText "hello".data (some [(1, 2)])) = "hello".data :=
  (C1_coverage "hello".data [(1, 2)] (by decide)).1

/-- C5: an absent or empty highlight list yields exactly one plain
segment carrying the whole text; in particular `"hello"` with `[]`. -/
theorem C5_empty_highlights :
    (∀ text : List Char, HighlightedText text none = [⟨.plain, text⟩]) ∧
    (∀ text : List Char, HighlightedText text (some []) = [⟨.plain, text⟩]) ∧
    HighlightedText "hello".data (some []) = [⟨.plain, "hello".data⟩] := by
  exact ⟨fun _ => rfl, fun _ => rfl, by decide⟩

/-- Emission instrumented with the index range each segment describes,
as a half-open interval: a plain gap describes `[lastIndex, start)`, a
highlighted segment `[start, end + 1)`, the plain tail
`[lastIndex, text.length)`. -/
def emitRanges (len : Int) : List HighlightRange → Int → List (Kind × Int × Int)
  | [], lastIndex => if lastIndex < len then [(.plain, lastIndex, len)] else []
  | (s, e) :: rs, lastIndex =>
      (if s > lastIndex then [(.plain, lastIndex, s)] else [])
        ++ (.highlighted, s, e + 1) :: emitRanges len rs (e + 1)

/-- The index ranges described by the segments of `HighlightedText`. -/
def highlightedRanges (text : List Char) (highlights : Option (List HighlightRange)) :
    List (Kind × Int × Int) :=
  match highlights with
  | none => [(.plain, 0, (text.length : Int))]
  | some hs =>
      if hs.length = 0 then [(.plain, 0, (text.length : Int))]
      else emitRanges (text.length : Int) (mergeRanges (sortHighlights hs)) 0

/-- Two consecutive emitted segments are compatible when the half-open
index ranges they describe share no index and their kinds differ. -/
def segRel (p q : Kind × Int × Int) : Prop :=
  (∀ x : Int, ¬ (p.2.1 ≤ x ∧ x < p.2.2 ∧ q.2.1 ≤ x ∧ x < q.2.2)) ∧ p.1 ≠ q.1

/-- Each segment's content is the slice of the index range it describes. -/
theorem emitSegments_eq_map (text : List Char) :
    ∀ (rs : List HighlightRange) (lastIndex : Int),
      emitSegments text rs lastIndex =
        (emitRanges (text.length : Int) rs lastIndex).map
          (fun p => ⟨p.1, jsSlice text p.2.1 p.2.2⟩) := by
  intro rs
  induction rs with
  | nil =>
      intro lastIndex
      by_cases h : lastIndex < (text.length : Int)
      · simp [emitSegments, emitRanges, h]
      · simp [emitSegments, emitRanges, h]
  | cons r rs ih =>
      obtain ⟨s, e⟩ := r
      intro lastIndex
      by_cases h : s > lastIndex
      · simp [emitSegments, emitRanges, h, ih]
      · simp [emitSegments, emitRanges, h, ih]

/-- The segments of `HighlightedText` are the slices of the index ranges
of `highlightedRanges`. -/
theorem HighlightedText_eq_map (text : List Char) (highlights : Option (List HighlightRange)) :
    HighlightedText text highlights =
      (highlightedRanges text highlights).map
        (fun p => ⟨p.1, jsSlice text p.2.1 p.2.2⟩) := by
  match highlights with
  | none => simp [HighlightedText, highlightedRanges, jsSlice_full]
  | some hs =>
      by_cases h : hs.length = 0
      · simp [HighlightedText, highlightedRanges, h, jsSlice_full]
      · simp only [HighlightedText, highlightedRanges, if_neg h]
        exact emitSegments_eq_map text _ 0

/-- When the next range starts strictly past the cursor, the first
emitted segment is the plain gap starting exactly at the cursor. -/
theorem emitRanges_head (len : Int) :
    ∀ (rs : List HighlightRange) (c : Int),
      (∀ y ∈ rs.head?, c < y.1) →
      ∀ q ∈ (emitRanges len rs c).head?, q.1 = Kind.plain ∧ q.2.1 = c := by
  intro rs c hhead q hq
  match rs with
  | [] =>
      rw [emitRanges] at hq
      by_cases h : c < len
      · rw [if_pos h] at hq
        simp only [List.head?_cons, Option.mem_def, Option.some.injEq] at hq
        subst hq
        exact ⟨rfl, rfl⟩
      · rw [if_neg h] at hq
        simp at hq
  | (s, e) :: rs =>
      have hcs : c < s := hhead (s, e) (by simp)
      rw [emitRanges, if_pos hcs] at hq
      simp only [List.cons_append, List.head?_cons, Option.mem_def, Option.some.injEq] at hq
      subst hq
      exact ⟨rfl, rfl⟩

/-- The emitted segments of separated merged ranges form a chain in which
consecutive segments describe disjoint index ranges and alternate in
kind. -/
theorem emitRanges_chain (len : Int) :
    ∀ (rs : List HighlightRange) (c : Int),
      List.Chain' (fun a b => a.2 + 1 < b.1) rs →
      List.Chain' segRel (emitRanges len rs c) := by
  intro rs
  induction rs with
  | nil =>
      intro c _
      rw [emitRanges]
      by_cases h : c < len
      · rw [if_pos h]; exact List.chain'_singleton _
      · rw [if_neg h]; exact List.chain'_nil
  | cons r rs ih =>
      obtain ⟨s, e⟩ := r
      intro c hchain
      obtain ⟨hrel, htail⟩ := List.chain'_cons'.mp hchain
      have htailchain : List.Chain' segRel ((Kind.highlighted, s, e + 1) :: emitRanges len rs (e + 1)) := by
        refine List.chain'_cons'.mpr ⟨?_, ih (e + 1) htail⟩
        intro q hq
        have hqh := emitRanges_head len rs (e + 1) (fun y hy => hrel y hy) q hq
        refine ⟨fun x => ?_, ?_⟩
        · intro hx
          dsimp only at hx
          rw [hqh.2] at hx
          omega
        · rw [hqh.1]
          simp
      rw [emitRanges]
      by_cases h : s > c
      · rw [if_pos h]
        refine List.chain'_cons.mpr ⟨⟨fun x hx => ?_, by simp⟩, htailchain⟩
        dsimp only at hx
        omega
      · rw [if_neg h]
        simpa using htailchain

/-- The chain property for the full pipeline, on arbitrary inputs. -/
theorem highlightedRanges_chain (text : List Char) (highlights : Option (List HighlightRange)) :
    List.Chain' segRel (highlightedRanges text highlights) := by
  match highlights with
  | none => exact List.chain'_singleton _
  | some hs =>
      by_cases h : hs.length = 0
      · simp only [highlightedRanges, if_pos h]
        exact List.chain'_singleton _
      · simp only [highlightedRanges, if_neg h]
        have hne : sortHighlights hs ≠ [] := by
          intro hnil
          have hperm := List.perm_insertionSort (fun a b : HighlightRange => a.1 ≤ b.1) hs
          rw [sortHighlights] at hnil
          rw [hnil] at hperm
          exact h (by simpa using hperm.length_eq.symm)
        obtain ⟨s₀, srest, heq⟩ := List.exists_cons_of_ne_nil hne
        rw [heq, mergeRanges_eq_mergeLoop]
        exact emitRanges_chain _ _ 0 (mergeLoop_chain srest s₀)

/-- C4: for every input, the half-open index ranges described by two
consecutive emitted segments never share an index (each segment's
content being exactly the slice of the range it describes), and the
non-adjacent ranges `[0,2]` and `[4,5]` stay two highlighted segments
with the one-character plain gap `"d"` at index 3 of `"abcdef"`. -/
theorem C4_no_overlap :
    (∀ (text : List Char) (highlights : Option (List HighlightRange)),
        HighlightedText text highlights =
          (highlightedRanges text highlights).map
            (fun p => ⟨p.1, jsSlice text p.2.1 p.2.2⟩)) ∧
    (∀ (text : List Char) (highlights : Option (List HighlightRange)),
        List.Chain'
          (fun p q => ∀ x : Int, ¬ (p.2.1 ≤ x ∧ x < p.2.2 ∧ q.2.1 ≤ x ∧ x < q.2.2))
          (highlightedRanges text highlights)) ∧
    HighlightedText "abcdef".data (some [(0, 2), (4, 5)]) =
      [⟨.highlighted, "abc".data⟩, ⟨.plain, "d".data⟩, ⟨.highlighted, "ef".data⟩] := by
  refine ⟨HighlightedText_eq_map, fun text highlights => ?_, by decide⟩
  exact (highlightedRanges_chain text highlights).imp (fun _ _ h => h.1)

/-- A sorted copy of a nonempty list is nonempty. -/
theorem sortHighlights_ne_nil (hs : List HighlightRange) (h : hs.length ≠ 0) :
    sortHighlights hs ≠ [] := by
  intro hnil
  have hperm := List.perm_insertionSort (fun a b : HighlightRange => a.1 ≤ b.1) hs
  rw [sortHighlights] at hnil
  rw [hnil] at hperm
  exact h (by simpa using hperm.length_eq.symm)

/-- A slice over the empty text is empty. -/
theorem jsSlice_nil (a b : Int) : jsSlice [] a b = [] := by
  simp [jsSlice]

/-- C7 fails as stated: on the empty text with highlights `[[0,1]]` the
function still emits a (highlighted) segment, so the output is not the
empty sequence of segments. -/
theorem C7_empty_text_cex :
    HighlightedText [] (some [(0, 1)]) ≠ [] := by
  decide

/-- C7 (amended): on a zero-length text, whatever the highlight list,
every emitted segment has empty content, so nothing visible is
emitted. -/
theorem C7_empty_text (hs : List HighlightRange) :
    ∀ seg ∈ HighlightedText [] (some hs), seg.content = [] := by
  intro seg hseg
  rw [HighlightedText_eq_map] at hseg
  obtain ⟨p, -, rfl⟩ := List.mem_map.mp hseg
  exact jsSlice_nil _ _

/-- Witness for C7 on the highlighted segment emitted for `[[0,1]]`. -/
theorem C7_empty_text_witness :
    (Segment.mk Kind.highlighted [] : Segment).content = [] :=
  C7_empty_text [(0, 1)] ⟨Kind.highlighted, []⟩ (by decide)

/-- A slice with `0 ≤ a < b ≤ text.length` is nonempty. -/
theorem jsSlice_ne_nil (s : List Char) (a b : Int)
    (ha : 0 ≤ a) (hab : a < b) (hb : b ≤ (s.length : Int)) :
    jsSlice s a b ≠ [] := by
  have ha' : ¬ a < 0 := by omega
  have hb' : ¬ b < 0 := by omega
  refine List.ne_nil_of_length_pos ?_
  simp only [jsSlice, if_neg ha', if_neg hb', List.length_drop, List.length_take]
  omega

/-- Under the range invariant, every emitted segment is nonempty. -/
theorem emit_nonempty (text : List Char) :
    ∀ (rs : List HighlightRange) (c : Int),
      0 ≤ c →
      (∀ r ∈ rs, 0 ≤ r.1 ∧ r.1 ≤ r.2 ∧ r.2 < (text.length : Int)) →
      ∀ seg ∈ emitSegments text rs c, seg.content ≠ [] := by
  intro rs
  induction rs with
  | nil =>
      intro c hc _ seg hseg
      rw [emitSegments] at hseg
      by_cases h : c < (text.length : Int)
      · rw [if_pos h] at hseg
        simp only [List.mem_singleton] at hseg
        subst hseg
        exact jsSlice_ne_nil text c _ hc h (le_refl _)
      · rw [if_neg h] at hseg
        simp at hseg
  | cons r rs ih =>
      obtain ⟨s, e⟩ := r
      intro c hc hv seg hseg
      have hse := hv (s, e) (List.mem_cons_self _ _)
      have hv' : ∀ x ∈ rs, 0 ≤ x.1 ∧ x.1 ≤ x.2 ∧ x.2 < (text.length : Int) :=
        fun x hx => hv x (List.mem_cons_of_mem _ hx)
      rw [emitSegments] at hseg
      by_cases h : s > c
      · rw [if_pos h] at hseg
        simp only [List.cons_append, List.nil_append, List.mem_cons] at hseg
        rcases hseg with rfl | rfl | hseg
        · exact jsSlice_ne_nil text c s hc h (by omega)
        · exact jsSlice_ne_nil text s (e + 1) hse.1 (by omega) (by omega)
        · exact ih (e + 1) (by omega) hv' seg hseg
      · rw [if_neg h] at hseg
        simp only [List.nil_append, List.mem_cons] at hseg
        rcases hseg with rfl | hseg
        · exact jsSlice_ne_nil text s (e + 1) hse.1 (by omega) (by omega)
        · exact ih (e + 1) (by omega) hv' seg hseg

/-- C10 fails as stated in the degenerate case of an empty text with an
empty highlight list (whose ranges vacuously satisfy the invariant): the
single emitted plain segment has empty content. -/
theorem C10_alternating_cex :
    ¬ (∀ seg ∈ HighlightedText [] (some []), seg.content ≠ []) := by
  decide

/-- C10 (amended): for a nonempty text whose ranges satisfy
`0 ≤ start ≤ end < text.length`, every emitted segment has nonempty
content and consecutive segments strictly alternate in kind. -/
theorem C10_alternating (text : List Char) (hs : List HighlightRange)
    (htext : text ≠ [])
    (hv : ∀ r ∈ hs, 0 ≤ r.1 ∧ r.1 ≤ r.2 ∧ r.2 < (text.length : Int)) :
    (∀ seg ∈ HighlightedText text (some hs), seg.content ≠ []) ∧
    List.Chain' (fun a b => a.kind ≠ b.kind) (HighlightedText text (some hs)) := by
  constructor
  · intro seg hseg
    by_cases hlen : hs.length = 0
    · have h0 : hs = [] := List.length_eq_zero.mp hlen
      subst h0
      simp only [HighlightedText, List.length_nil, if_pos] at hseg
      simp only [List.mem_singleton] at hseg
      subst hseg
      exact htext
    · have hsortmem : ∀ r ∈ sortHighlights hs,
          0 ≤ r.1 ∧ r.1 ≤ r.2 ∧ r.2 < (text.length : Int) := by
        intro r hr
        refine hv r ?_
        simpa [sortHighlights] using hr
      obtain ⟨s₀, srest, heq⟩ := List.exists_cons_of_ne_nil (sortHighlights_ne_nil hs hlen)
      have hs₀ := hsortmem s₀ (heq ▸ List.mem_cons_self _ _)
      have hrest : ∀ r ∈ srest, 0 ≤ r.1 ∧ r.1 ≤ r.2 ∧ r.2 < (text.length : Int) :=
        fun r hr => hsortmem r (heq ▸ List.mem_cons_of_mem _ hr)
      have hstep : HighlightedText text (some hs) =
          emitSegments text (mergeLoop s₀ srest) 0 := by
        simp only [HighlightedText, if_neg hlen]
        rw [heq, mergeRanges_eq_mergeLoop]
      rw [hstep] at hseg
      exact emit_nonempty text _ 0 (le_refl 0)
        (mergeLoop_bounds (text.length : Int) srest s₀ hs₀ hrest) seg hseg
  · rw [HighlightedText_eq_map]
    rw [List.chain'_map]
    exact (highlightedRanges_chain text (some hs)).imp (fun p q h => h.2)

/-- Witness for C10 on `"ab"` with the single range `[0,0]`. -/
theorem C10_alternating_witness :
    List.Chain' (fun a b => a.kind ≠ b.kind) (HighlightedText "ab".data (some [(0, 0)])) :=
  (C10_alternating "ab".data [(0, 0)] (by decide) (by decide)).2

/-- A chain of ranges separated by more than adjacency passes through
the merge loop unchanged. -/
theorem mergeLoop_of_sep :
    ∀ (rs : List HighlightRange) (cur : HighlightRange),
      List.Chain' (fun a b => a.2 + 1 < b.1) (cur :: rs) →
      mergeLoop cur rs = cur :: rs := by
  intro rs
  induction rs with
  | nil => intro cur _; rfl
  | cons r rs ih =>
      intro cur h
      obtain ⟨hrel, htail⟩ := List.chain'_cons.mp h
      rw [mergeLoop, if_neg (by omega), ih r htail]

/-- C6 fails as stated: `[0,2]` and `[3,5]` are sorted by start and
pairwise disjoint as index sets, yet the merge pass coalesces them
(they are adjacent), so the output differs from the input. -/
theorem C6_idempotent_cex :
    List.Sorted (fun a b : HighlightRange => a.1 ≤ b.1) [(0, 2), (3, 5)] ∧
    List.Pairwise
      (fun a b : HighlightRange => ∀ x : Int, ¬ (a.1 ≤ x ∧ x ≤ a.2 ∧ b.1 ≤ x ∧ x ≤ b.2))
      [(0, 2), (3, 5)] ∧
    mergeRanges [(0, 2), (3, 5)] ≠ [(0, 2), (3, 5)] := by
  refine ⟨by decide, ?_, by decide⟩
  refine List.Pairwise.cons (fun b hb => ?_) (List.pairwise_singleton _ _)
  simp only [List.mem_singleton] at hb
  subst hb
  intro x
  dsimp only
  omega

/-- C6 (amended): a list of ranges that is sorted by start and pairwise
separated (each later start exceeding each earlier end by more than one,
so no two ranges are adjacent or overlapping) passes through the merge
pass unchanged: same starts, same ends, same count. -/
theorem C6_idempotent (l : List HighlightRange)
    (hsorted : List.Sorted (fun a b : HighlightRange => a.1 ≤ b.1) l)
    (hsep : List.Pairwise (fun a b : HighlightRange => a.2 + 1 < b.1) l) :
    mergeRanges l = l := by
  match l with
  | [] => rfl
  | r :: rs =>
      rw [mergeRanges_eq_mergeLoop]
      exact mergeLoop_of_sep rs r hsep.chain'

/-- Witness for C6 on the separated ranges `[0,2]`, `[4,5]`. -/
theorem C6_idempotent_witness :
    mergeRanges [((0 : Int), (2 : Int)), (4, 5)] = [(0, 2), (4, 5)] :=
  C6_idempotent [(0, 2), (4, 5)] (by decide) (by decide)

/-- Every slice is a contiguous piece of the text. -/
theorem jsSlice_piece (s : List Char) (a b : Int) : jsSlice s a b <:+: s := by
  rw [jsSlice]
  exact ((List.drop_suffix _ _).isInfix).trans ((List.take_prefix _ _).isInfix)

/-- C8: the function is total on arbitrary integer ranges — in this
embedding every branch is defined, mirroring the fact that JavaScript
string slicing never throws — and malformed ranges only produce
best-effort slices: every emitted content is a contiguous (possibly
empty) piece of the text, as the inverted, negative and out-of-bounds
examples show. -/
theorem C8_no_throw :
    (∀ (text : List Char) (highlights : Option (List HighlightRange)),
        ∀ seg ∈ HighlightedText text highlights, seg.content <:+: text) ∧
    HighlightedText "abc".data (some [(2, 0)]) =
      [⟨.plain, "ab".data⟩, ⟨.highlighted, []⟩, ⟨.plain, "bc".data⟩] ∧
    HighlightedText "abc".data (some [(-2, 1)]) =
      [⟨.highlighted, "b".data⟩, ⟨.plain, "c".data⟩] ∧
    HighlightedText "abc".data (some [(1, 5)]) =
      [⟨.plain, "a".data⟩, ⟨.highlighted, "bc".data⟩] := by
  refine ⟨fun text highlights seg hseg => ?_, by decide, by decide, by decide⟩
  rw [HighlightedText_eq_map] at hseg
  obtain ⟨p, -, rfl⟩ := List.mem_map.mp hseg
  exact jsSlice_piece text _ _

/-- Witness for C8 on the inverted range `[2,0]` over `"abc"`. -/
theorem C8_no_throw_witness :
    (Segment.mk Kind.plain "ab".data : Segment).content <:+: "abc".data :=
  C8_no_throw.1 "abc".data (some [(2, 0)]) ⟨Kind.plain, "ab".data⟩ (by decide)

/-!
Memory model for the purity claim.  In JavaScript, a `HighlightRange`
value is a reference to a mutable two-element array.  The heap is the
list of allocated range cells; a pointer is an index into it.
`[...highlights]` copies the array of references, `.sort` permutes that
copy, `mergedHighlights.push([...range])` allocates a fresh cell, and
`last[1] = Math.max(...)` writes to a cell.  The theorems show that the
writes only ever hit cells allocated by the merge loop itself, so the
caller's array and every caller-owned pair survive unchanged, and that
the observable result coincides with the pure `mergeRanges`.
-/

/-- The heap of range cells. -/
abbrev Heap := List HighlightRange

/-- Dereference a pointer (reads of `range[0]` / `range[1]`). -/
def readRange (h : Heap) (p : Nat) : HighlightRange :=
  h.getD p (0, 0)

/-- `[...highlights].sort((a, b) => a[0] - b[0])`: the copied array holds
the same references, sorted by the start field of the cells they point
to; no cell is touched. -/
def sortPtrs (h : Heap) (ps : List Nat) : List Nat :=
  ps.insertionSort (fun a b => (readRange h a).1 ≤ (readRange h b).1)

/-- One iteration of the merge loop on the real memory, processing the
reference `p`: read `mergedHighlights[mergedHighlights.length - 1]`;
either assign `last[1] = Math.max(last[1], range[1])` (a write to the
cell `lp` allocated by this very loop) or push a fresh copy
`[...range]` (allocating a new cell at the end of the heap). -/
def mergeStepSt (st : Heap × List Nat) (p : Nat) : Heap × List Nat :=
  match st.2.getLast? with
  | some lp =>
      let last := readRange st.1 lp
      let range := readRange st.1 p
      if range.1 ≤ last.2 + 1 then
        (st.1.set lp (last.1, max last.2 range.2), st.2)
      else
        (st.1 ++ [range], st.2 ++ [st.1.length])
  | none => (st.1 ++ [readRange st.1 p], st.2 ++ [st.1.length])

/-- The sort-and-merge phase on the real memory: copy and sort the
caller's reference list, then fold the merge step starting from an empty
`mergedHighlights`. -/
def mergePhaseSt (h : Heap) (ps : List Nat) : Heap × List Nat :=
  (sortPtrs h ps).foldl mergeStepSt (h, [])

/-- Setting a cell at or past `n` does not change the first `n` cells. -/
theorem take_set_of_le :
    ∀ (l : Heap) (n m : Nat) (v : HighlightRange), m ≤ n →
      (l.set n v).take m = l.take m
  | [], _, _, _, _ => rfl
  | x :: xs, n, 0, v, _ => by simp
  | x :: xs, 0, m + 1, v, h => absurd h (by omega)
  | x :: xs, n + 1, m + 1, v, h => by
      simp only [List.set_cons_succ, List.take_succ_cons]
      rw [take_set_of_le xs n m v (by omega)]

/-- `range'` with one more element. -/
theorem range'_snoc : ∀ (n s : Nat), List.range' s (n + 1) = List.range' s n ++ [s + n] := by
  intro n
  induction n with
  | zero => intro s; simp [List.range']
  | succ n ih =>
      intro s
      rw [List.range'_succ, ih (s + 1), List.range'_succ]
      simp only [List.cons_append, List.cons.injEq, true_and]
      congr 2
      omega

/-- Reading below a preserved prefix gives the original value. -/
theorem readRange_frame (hq h₀ : Heap) (p : Nat)
    (htake : hq.take h₀.length = h₀) (hp : p < h₀.length) :
    readRange hq p = readRange h₀ p := by
  have hlen : h₀.length ≤ hq.length := by
    have := congrArg List.length htake
    simp only [List.length_take] at this
    omega
  simp only [readRange, List.getD]
  rw [← htake]
  congr 1
  simp only [List.get?_eq_getElem?]
  exact (List.getElem?_take_of_lt hp).symm

/-- Reading an appended cell. -/
theorem readRange_concat (hq : Heap) (v : HighlightRange) :
    readRange (hq ++ [v]) hq.length = v := by
  simp [readRange, List.getD]

/-- Reading left of an append is unchanged. -/
theorem readRange_append_left (hq : Heap) (l : Heap) (p : Nat) (hp : p < hq.length) :
    readRange (hq ++ l) p = readRange hq p := by
  simp [readRange, List.getD, List.getElem?_append, hp]

/-- Reading a cell other than the one written is unchanged. -/
theorem readRange_set_ne (hq : Heap) (n p : Nat) (v : HighlightRange) (h : n ≠ p) :
    readRange (hq.set n v) p = readRange hq p := by
  simp [readRange, List.getD, List.getElem?_set_ne h]

/-- Reading the written cell gives the written value. -/
theorem readRange_set_self (hq : Heap) (n : Nat) (v : HighlightRange) (h : n < hq.length) :
    readRange (hq.set n v) n = v := by
  simp [readRange, List.getD, List.getElem?_set_self, h]

/-- `mergeBody` on an empty accumulator pushes the range. -/
theorem mergeBody_nil (R : HighlightRange) : mergeBody [] R = [R] := rfl

/-- `mergeBody` on an accumulator with a known last element. -/
theorem mergeBody_of_getLast (acc : List HighlightRange) (L R : HighlightRange)
    (h : acc.getLast? = some L) :
    mergeBody acc R =
      if R.1 ≤ L.2 + 1 then acc.dropLast ++ [(L.1, max L.2 R.2)] else acc ++ [R] := by
  rw [mergeBody, h]

/-- Invariant of the merge loop on the real memory: the cells present
before the loop are never written (the caller's pairs among them), the
merged references point at the block of cells the loop itself allocated,
and dereferencing them yields exactly the pure fold of `mergeBody` over
the dereferenced input. -/
theorem mergeFold_inv (h₀ : Heap) :
    ∀ (qs : List Nat) (hq : Heap) (n : Nat),
      (∀ p ∈ qs, p < h₀.length) →
      hq.length = h₀.length + n →
      hq.take h₀.length = h₀ →
      ∃ k,
        (qs.foldl mergeStepSt (hq, List.range' h₀.length n)).1.length = h₀.length + k ∧
        (qs.foldl mergeStepSt (hq, List.range' h₀.length n)).1.take h₀.length = h₀ ∧
        (qs.foldl mergeStepSt (hq, List.range' h₀.length n)).2 = List.range' h₀.length k ∧
        (qs.foldl mergeStepSt (hq, List.range' h₀.length n)).2.map
            (readRange (qs.foldl mergeStepSt (hq, List.range' h₀.length n)).1) =
          (qs.map (readRange h₀)).foldl mergeBody
            ((List.range' h₀.length n).map (readRange hq)) := by
  intro qs
  induction qs with
  | nil =>
      intro hq n hv hlen htake
      exact ⟨n, hlen, htake, rfl, rfl⟩
  | cons p qs ih =>
      intro hq n hv hlen htake
      have hp : p < h₀.length := hv p (List.mem_cons_self _ _)
      have hv' : ∀ q ∈ qs, q < h₀.length := fun q hq' => hv q (List.mem_cons_of_mem _ hq')
      have hRp : readRange hq p = readRange h₀ p := readRange_frame hq h₀ p htake hp
      simp only [List.foldl_cons, List.map_cons]
      match n with
      | 0 =>
          have hq0 : hq.length = h₀.length := by omega
          have hstep : mergeStepSt (hq, List.range' h₀.length 0) p =
              (hq ++ [readRange hq p], List.range' h₀.length 1) := by
            simp [mergeStepSt, List.range', hq0]
          rw [hstep]
          obtain ⟨k, h1, h2, h3, h4⟩ := ih (hq ++ [readRange hq p]) 1 hv'
            (by simp; omega) (by rw [List.take_append_of_le_length (by omega)]; exact htake)
          refine ⟨k, h1, h2, h3, ?_⟩
          rw [h4]
          have hacc : (List.range' h₀.length 1).map (readRange (hq ++ [readRange hq p])) =
              mergeBody ((List.range' h₀.length 0).map (readRange hq)) (readRange h₀ p) := by
            have : List.range' h₀.length 1 = [hq.length] := by simp [List.range', hq0]
            rw [this]
            simp only [List.map_cons, List.map_nil, readRange_concat]
            simp [mergeBody, hRp]
          rw [hacc]
      | Nat.succ m =>
          have hqlen : hq.length = h₀.length + m + 1 := by omega
          have hms : List.range' h₀.length (m + 1) =
              List.range' h₀.length m ++ [h₀.length + m] := range'_snoc m h₀.length
          have hlast : (List.range' h₀.length (m + 1)).getLast? = some (h₀.length + m) := by
            rw [hms]; exact List.getLast?_concat _
          have hlplt : h₀.length + m < hq.length := by omega
          have hmapLast : ((List.range' h₀.length (m + 1)).map (readRange hq)).getLast? =
              some (readRange hq (h₀.length + m)) := by
            rw [List.getLast?_map, hlast]
            rfl
          have hbody : mergeBody ((List.range' h₀.length (m + 1)).map (readRange hq))
                (readRange h₀ p) =
              if (readRange hq p).1 ≤ (readRange hq (h₀.length + m)).2 + 1 then
                ((List.range' h₀.length (m + 1)).map (readRange hq)).dropLast
                  ++ [((readRange hq (h₀.length + m)).1,
                        max (readRange hq (h₀.length + m)).2 (readRange hq p).2)]
              else
                (List.range' h₀.length (m + 1)).map (readRange hq) ++ [readRange hq p] := by
            rw [← hRp]
            exact mergeBody_of_getLast _ _ _ hmapLast
          by_cases hcond : (readRange hq p).1 ≤ (readRange hq (h₀.length + m)).2 + 1
          · have hstep : mergeStepSt (hq, List.range' h₀.length (m + 1)) p =
                (hq.set (h₀.length + m)
                  ((readRange hq (h₀.length + m)).1,
                    max (readRange hq (h₀.length + m)).2 (readRange hq p).2),
                  List.range' h₀.length (m + 1)) := by
              simp [mergeStepSt, hlast, hcond]
            rw [hstep]
            obtain ⟨k, h1, h2, h3, h4⟩ := ih
              (hq.set (h₀.length + m)
                ((readRange hq (h₀.length + m)).1,
                  max (readRange hq (h₀.length + m)).2 (readRange hq p).2))
              (m + 1) hv'
              (by simp only [List.length_set]; omega)
              (by rw [take_set_of_le _ _ _ _ (by omega)]; exact htake)
            refine ⟨k, h1, h2, h3, ?_⟩
            rw [h4]
            have hacc : (List.range' h₀.length (m + 1)).map
                  (readRange (hq.set (h₀.length + m)
                    ((readRange hq (h₀.length + m)).1,
                      max (readRange hq (h₀.length + m)).2 (readRange hq p).2))) =
                mergeBody ((List.range' h₀.length (m + 1)).map (readRange hq))
                  (readRange h₀ p) := by
              rw [hbody, if_pos hcond]
              conv_lhs => rw [hms]
              rw [List.map_append]
              have hdl : ((List.range' h₀.length (m + 1)).map (readRange hq)).dropLast =
                  (List.range' h₀.length m).map (readRange hq) := by
                rw [← List.map_dropLast]
                congr 1
                rw [hms, List.dropLast_concat]
              rw [hdl]
              congr 1
              · refine List.map_congr_left ?_
                intro q hqmem
                have hqlt : q < h₀.length + m := by
                  have := List.mem_range'_1.mp hqmem
                  omega
                exact readRange_set_ne hq _ q _ (by omega)
              · simp only [List.map_cons, List.map_nil, List.cons.injEq, and_true]
                exact readRange_set_self hq _ _ hlplt
            rw [hacc]
          · have hstep : mergeStepSt (hq, List.range' h₀.length (m + 1)) p =
                (hq ++ [readRange hq p],
                  List.range' h₀.length (m + 1) ++ [hq.length]) := by
              simp [mergeStepSt, hlast, hcond]
            have hms2 : List.range' h₀.length (m + 1) ++ [hq.length] =
                List.range' h₀.length (m + 2) := by
              rw [range'_snoc (m + 1) h₀.length, hqlen]
              simp only [List.append_cancel_left_eq, List.cons.injEq, and_true]
              omega
            rw [hstep, hms2]
            obtain ⟨k, h1, h2, h3, h4⟩ := ih (hq ++ [readRange hq p]) (m + 2) hv'
              (by simp only [List.length_append, List.length_cons, List.length_nil]; omega)
              (by rw [List.take_append_of_le_length (by omega)]; exact htake)
            refine ⟨k, h1, h2, h3, ?_⟩
            rw [h4]
            have hacc : (List.range' h₀.length (m + 2)).map (readRange (hq ++ [readRange hq p])) =
                mergeBody ((List.range' h₀.length (m + 1)).map (readRange hq))
                  (readRange h₀ p) := by
              rw [hbody, if_neg hcond]
              rw [← hms2, List.map_append]
              congr 1
              · refine List.map_congr_left ?_
                intro q hqmem
                have hqlt : q < hq.length := by
                  have := List.mem_range'_1.mp hqmem
                  omega
                exact readRange_append_left hq _ q hqlt
              · simp only [List.map_cons, List.map_nil, List.cons.injEq, and_true]
                exact readRange_concat hq _
            rw [hacc]

/-- Inserting a reference sorted by the pointed-to start is the same as
inserting the dereferenced value into the dereferenced list. -/
theorem map_orderedInsert (h : Heap) (x : Nat) :
    ∀ l : List Nat,
      (List.orderedInsert (fun a b => (readRange h a).1 ≤ (readRange h b).1) x l).map
          (readRange h) =
        List.orderedInsert (fun a b : HighlightRange => a.1 ≤ b.1) (readRange h x)
          (l.map (readRange h)) := by
  intro l
  induction l with
  | nil => rfl
  | cons y ys ih =>
      by_cases hxy : (readRange h x).1 ≤ (readRange h y).1
      · simp [List.orderedInsert, hxy]
      · simp [List.orderedInsert, hxy, ih]

/-- Sorting the references by the pointed-to start and then reading is
the same as reading and then sorting the values. -/
theorem map_sortPtrs (h : Heap) :
    ∀ ps : List Nat, (sortPtrs h ps).map (readRange h) = sortHighlights (ps.map (readRange h)) := by
  intro ps
  induction ps with
  | nil => rfl
  | cons p ps ih =>
      simp only [sortPtrs, sortHighlights, List.insertionSort, List.map_cons]
      rw [map_orderedInsert h p]
      simp only [sortPtrs, sortHighlights] at ih
      rw [ih]

/-- The sort-and-merge phase leaves every pre-existing cell unchanged and
its observable result is the pure `mergeRanges` of the sorted values. -/
theorem mergePhaseSt_spec (h : Heap) (ps : List Nat) (hps : ∀ p ∈ ps, p < h.length) :
    (mergePhaseSt h ps).1.take h.length = h ∧
    (mergePhaseSt h ps).2.map (readRange (mergePhaseSt h ps).1) =
      mergeRanges (sortHighlights (ps.map (readRange h))) := by
  have hv : ∀ p ∈ sortPtrs h ps, p < h.length := by
    intro p hp
    refine hps p ?_
    simpa [sortPtrs] using hp
  obtain ⟨k, h1, h2, h3, h4⟩ :=
    mergeFold_inv h (sortPtrs h ps) h 0 hv (by omega) (List.take_length h)
  refine ⟨by simpa [mergePhaseSt, List.range'] using h2, ?_⟩
  have h4' := h4
  simp only [List.range', List.map_nil] at h4'
  rw [map_sortPtrs] at h4'
  simpa [mergePhaseSt, mergeRanges, List.range'] using h4'

/-- C9: the component is observably pure.  On the memory model, the
sort-and-merge phase (the only part that could write) touches no cell
that existed before the call — the caller's highlight pairs and list
survive verbatim, sorting and merging operating on copies — its
observable result is exactly the pure `mergeRanges` of the sorted
dereferenced input, and two calls over equal range values produce equal
results. -/
theorem C9_purity (h : Heap) (ps : List Nat) (hps : ∀ p ∈ ps, p < h.length) :
    (mergePhaseSt h ps).1.take h.length = h ∧
    (mergePhaseSt h ps).2.map (readRange (mergePhaseSt h ps).1) =
      mergeRanges (sortHighlights (ps.map (readRange h))) ∧
    (∀ (h₂ : Heap) (ps₂ : List Nat), (∀ p ∈ ps₂, p < h₂.length) →
        ps.map (readRange h) = ps₂.map (readRange h₂) →
        (mergePhaseSt h ps).2.map (readRange (mergePhaseSt h ps).1) =
          (mergePhaseSt h₂ ps₂).2.map (readRange (mergePhaseSt h₂ ps₂).1)) := by
  refine ⟨(mergePhaseSt_spec h ps hps).1, (mergePhaseSt_spec h ps hps).2, ?_⟩
  intro h₂ ps₂ hps₂ heqv
  rw [(mergePhaseSt_spec h ps hps).2, (mergePhaseSt_spec h₂ ps₂ hps₂).2, heqv]

/-- Witness for C9 on a two-cell heap holding `[1,2]` and `[0,3]`. -/
theorem C9_purity_witness :
    (mergePhaseSt [((1 : Int), (2 : Int)), ((0 : Int), (3 : Int))] [0, 1]).1.take 2 =
      [((1 : Int), (2 : Int)), ((0 : Int), (3 : Int))] :=
  (C9_purity [((1 : Int), (2 : Int)), ((0 : Int), (3 : Int))] [0, 1] (by decide)).1

end Kumo
